import Mathlib

/-! Verification development for the t7m transformation library.

Shallow embedding of:
  * `Cache` (src/src/hono/types.ts, the class with `call(...args)`,
    `clear`, `objectCacheKey` and the `args[0] ?? 'default-key'`
    defaulting) over a model of JavaScript argument values;
  * `AbstractTransformer` (src/src/abstractTransformer.ts, the version
    with `clearCacheOnTransform`, `signature`, `_clearCache`,
    `disableClearCacheForTransformers`, `onBeforeTransform`,
    `transform` / `transformMany` / `_transform` / `_transformMany` /
    `__transform`): the include-resolution engine and the cache
    lifecycle over a graph of transformer instances.

Concurrency note: the source is single-threaded cooperative JavaScript;
`Promise.all` fan-out is modelled by running the started tasks in list
order (every task is started, all outcomes are collected, the aggregate
rejects with the first rejection when one exists).
-/

namespace T7M

/-! Section: JavaScript values.

Here `JSField` models a top-level field value stored inside an object
argument; a nested object is represented by `fNested` because the cache
key derivation never looks below the top level (template interpolation
of a plain nested object always yields the text "[object Object]").
`JSVal` models a JavaScript argument value.
-/

inductive JSField where
  | fNum (n : Int)
  | fStr (s : String)
  | fBool (b : Bool)
  | fNull
  | fUndefined
  | fNested
deriving DecidableEq, Repr

inductive JSVal where
  | vNum (n : Int)
  | vStr (s : String)
  | vBool (b : Bool)
  | vNull
  | vUndefined
  | vSym (descr : String)
  | vObj (fields : List (String × JSField))
deriving DecidableEq, Repr

/-- JavaScript truthiness of a field value. -/
def JSField.truthy : JSField → Bool
  | .fNum n => n ≠ 0
  | .fStr s => s ≠ ""
  | .fBool b => b
  | .fNull => false
  | .fUndefined => false
  | .fNested => true

/-- Template-literal interpolation of a field value, as in the
source's string-building for object cache keys. -/
def JSField.interp : JSField → String
  | .fNum n => toString n
  | .fStr s => s
  | .fBool b => if b then "true" else "false"
  | .fNull => "null"
  | .fUndefined => "undefined"
  | .fNested => "[object Object]"

/-- The result of `arg.toString()` on a non-object value.  `vNull` and
`vUndefined` would throw a TypeError in JavaScript, but both are
unreachable in `Cache.call` because `args[0] ?? 'default-key'` replaces
them before `.toString()` runs; the values chosen here are inert. -/
def JSVal.toStringJS : JSVal → String
  | .vNum n => toString n
  | .vStr s => s
  | .vBool b => if b then "true" else "false"
  | .vNull => "null"
  | .vUndefined => "undefined"
  | .vSym d => "Symbol(" ++ d ++ ")"
  | .vObj _ => "[object Object]"

/-- Models the JavaScript test `typeof arg === 'object'` (true for
objects and for `null`). -/
def JSVal.typeofObject : JSVal → Bool
  | .vObj _ => true
  | .vNull => true
  | _ => false

/-! Section: association-list helpers (string-keyed maps). -/

/-- Lookup in a string-keyed association list. -/
def lookupStr {α : Type} : List (String × α) → String → Option α
  | [], _ => none
  | (k, v) :: rest, key => if k = key then some v else lookupStr rest key

/-- Models `Map.set` semantics: replace the value in place when the key is
present, append otherwise. -/
def setStr {α : Type} : List (String × α) → String → α → List (String × α)
  | [], key, v => [(key, v)]
  | (k, v₀) :: rest, key, v =>
      if k = key then (k, v) :: rest else (k, v₀) :: setStr rest key v

/-! Section: cache key derivation (`Cache.objectCacheKey` and the key
logic of `Cache.call`). -/

/-- JavaScript default array `sort()` on strings: ascending
lexicographic order. -/
def sortStr (l : List String) : List String :=
  List.insertionSort (· ≤ ·) l

/-- Reads `arg[key]` for the key-derivation template: an absent key reads as
`undefined`. -/
def fieldOf (fields : List (String × JSField)) (key : String) : JSField :=
  (lookupStr fields key).getD .fUndefined

/-- Source: `Cache.objectCacheKey`.  Sort the chosen keys, render each
as `key:value` by template interpolation, join with `-`.  A non-object
argument never reaches this function. -/
def objectCacheKey (keys : List String) (arg : JSVal) : String :=
  let fields := match arg with
    | .vObj fs => fs
    | _ => []
  String.intercalate "-" ((sortStr keys).map (fun k => k ++ ":" ++ (fieldOf fields k).interp))

/-- Models `Object.keys(arg)`: the own keys of the object, in insertion order.
(JavaScript reorders integer-like keys first; the derivation sorts the
keys anyway, so that reordering is invisible to the cache key.) -/
def objKeys : JSVal → List String
  | .vObj fs => fs.map Prod.fst
  | _ => []

/-- Source: `const arg = args[0] ?? 'default-key'` in `Cache.call`.
`args` is `none` for a zero-argument call; `??` also replaces `null`
and `undefined` arguments with the string `'default-key'`. -/
def effectiveArg : Option JSVal → JSVal
  | none => .vStr "default-key"
  | some a => if a = .vNull ∨ a = .vUndefined then .vStr "default-key" else a

/-- The cache key computed by `Cache.call` for a call with argument
list `args`, given the configured `cacheOnObjectParams`. -/
def deriveCacheKey (cacheOnObjectParams : Option (List String)) (args : Option JSVal) : String :=
  let arg := effectiveArg args
  if ¬ arg.typeofObject then arg.toStringJS
  else
    match cacheOnObjectParams with
    | some keys => objectCacheKey keys arg
    | none => objectCacheKey (objKeys arg) arg

/-! Section: the memoizing cache (`Cache`).

The parameter `α` is the type of stored results (`ReturnType<FN>`).  The wrapped
function is modelled with an invocation counter so that distinct
invocations produce distinguishable result instances; `truthy` models
JavaScript truthiness of a stored result (every promise is an object,
hence truthy).  The `count` field of the state is instrumentation: the
number of times the wrapped function has been invoked.  `clear()`
empties the entry map and does not reset the instrumentation. -/

structure MemoCache (α : Type) where
  fn : Nat → Option JSVal → α
  truthy : α → Bool
  cacheOnObjectParams : Option (List String)

structure CacheSt (α : Type) where
  entries : List (String × α)
  count : Nat
deriving DecidableEq, Repr

/-- Source: `Cache.call`.  Derive the key; if the map holds a truthy
result for it, return that exact stored result; otherwise invoke the
wrapped function with the original arguments, store the result, and
return it.  (`let result = this.cache.get(cacheKey); if (!result) ...`
re-invokes both when the key is absent and when the stored value is
falsy.) -/
def Cache.call {α : Type} (c : MemoCache α) (st : CacheSt α) (args : Option JSVal) :
    α × CacheSt α :=
  let cacheKey := deriveCacheKey c.cacheOnObjectParams args
  match lookupStr st.entries cacheKey with
  | some r =>
      if c.truthy r then (r, st)
      else
        let r' := c.fn st.count args
        (r', ⟨setStr st.entries cacheKey r', st.count + 1⟩)
  | none =>
      let r' := c.fn st.count args
      (r', ⟨setStr st.entries cacheKey r', st.count + 1⟩)

/-- Source: `Cache.clear` — empties the map entirely. -/
def Cache.clear {α : Type} (st : CacheSt α) : CacheSt α :=
  ⟨[], st.count⟩

/-! Section: promise-like stored results, for concrete cache scenarios. -/

/-- JavaScript truthiness of a `JSVal`. -/
def JSVal.truthy : JSVal → Bool
  | .vNum n => n ≠ 0
  | .vStr s => s ≠ ""
  | .vBool b => b
  | .vNull => false
  | .vUndefined => false
  | .vSym _ => true
  | .vObj _ => true

/-- A stored cache result: either a promise instance (identified by the
invocation index that created it, and whether it is rejected), or a raw
non-promise value returned by a synchronous wrapped function. -/
inductive PV where
  | promise (id : Nat) (rejected : Bool)
  | raw (v : JSVal)
deriving DecidableEq, Repr

/-- Promises are objects, hence always truthy — rejected or not. -/
def PV.truthy : PV → Bool
  | .promise _ _ => true
  | .raw v => v.truthy

/-- A wrapped fetch function whose every invocation returns a fresh
rejected promise. -/
def rejectingFetch : MemoCache PV :=
  ⟨fun n _ => .promise n true, PV.truthy, none⟩

/-! Section: the transformer model.

A transformer instance is described by a `TransformerDesc` (its
signature, nested-transformer references, include-resolver map and data
function); the mutable parts (the `clearCacheOnTransform` flag, which
`disableClearCacheForTransformers` flips, and the contents of the named
caches) live in a `World`, keyed by signature.  Signatures model
`crypto.randomUUID()`: distinct instances carry distinct opaque
strings.  Nested-transformer references are recorded as the signature
the reference resolves to; a factory-backed reference
(`Cache<() => AnyAbstractTransformer>`) resolves through its own
memoized `call()` to a stable instance, so it is likewise represented
by that instance's signature. -/

/-- A thrown JavaScript value: either an `Error` object (carrying a
message) or any other thrown value (rendered by `String(error)`). -/
inductive Thrown where
  | errObj (msg : String)
  | nonError (s : String)
deriving DecidableEq, Repr

/-- Models `error instanceof Error ? error.message : String(error)`. -/
def Thrown.text : Thrown → String
  | .errObj m => m
  | .nonError s => s

/-- A single-quote character, used to build the exact wrap message of
the source. -/
def sq : String := String.singleton (Char.ofNat 39)

/-- The error `__transform` re-throws when an include resolver fails:
`new Error` with the message
`[T7M] Error in include function '<name>': <original message>`. -/
def wrapIncludeError (name : String) (e : Thrown) : Thrown :=
  .errObj ("[T7M] Error in include function " ++ sq ++ name ++ sq ++ ": " ++ e.text)

/-- Mutable per-instance state: the `clearCacheOnTransform` flag and the
entries of each named cache of the instance's `cache` map. -/
structure NodeState where
  flag : Bool
  caches : List (String × CacheSt PV)
deriving DecidableEq, Repr

/-- The mutable state of all transformer instances, keyed by signature. -/
abbrev World := List (String × NodeState)

/-- Models the constructor:
`this.clearCacheOnTransform = params?.clearCacheOnTransform ?? true`. -/
def mkClearCacheOnTransform : Option Bool → Bool
  | none => true
  | some b => b

/-- An include resolver: receives `(input, props, forwardedIncludes)`,
may read and update the world (it can fetch through any caches or call
into nested transformers), and produces the value for its output field
or throws/rejects. -/
abbrev ResolverW := World → JSVal → JSVal → List String → World × Except Thrown JSField

/-- The immutable description of one transformer instance. -/
structure TransformerDesc where
  sig : String
  nested : List String
  /-- The own enumerable entries of `includesMap`; a key mapped to
  `none` models an own property whose value is `undefined`. -/
  own : List (String × Option ResolverW)
  /-- The members `includesMap` inherits from `Object.prototype`
  (`includesMap` is declared as the object literal `{}`), modelled as
  uninterpreted resolver-shaped functions. -/
  protoM : String → ResolverW
  /-- The user-supplied base projection `data(input, props)`. -/
  dataFnW : World → JSVal → JSVal → World × Except Thrown JSVal

/-- The own property names of `Object.prototype`, visible through the
`in` operator on any object literal. -/
def protoProps : List String :=
  ["constructor", "hasOwnProperty", "isPrototypeOf", "propertyIsEnumerable",
    "toLocaleString", "toString", "valueOf",
    "__defineGetter__", "__defineSetter__", "__lookupGetter__", "__lookupSetter__",
    "__proto__"]

/-- Models `include in this.includesMap`: true for own keys (whatever
their value) and for properties inherited from `Object.prototype`. -/
def inIncludesMap (t : TransformerDesc) (key : String) : Bool :=
  (lookupStr t.own key).isSome || decide (key ∈ protoProps)

/-- Models the member access `this.includesMap[include]`: an own
property shadows the prototype (even when its value is `undefined`);
otherwise the inherited `Object.prototype` member is found. -/
def includesMapGet (t : TransformerDesc) (key : String) : Option ResolverW :=
  match lookupStr t.own key with
  | some r => r
  | none => if key ∈ protoProps then some (t.protoM key) else none

/-- Models `Array.from(new Set(includes))`: deduplication keeping the
first occurrence of each name. -/
def dedupAux : List String → List String → List String
  | [], _ => []
  | x :: xs, seen => if x ∈ seen then dedupAux xs seen else x :: dedupAux xs (x :: seen)

def dedupFirst (l : List String) : List String := dedupAux l []

/-- The observable outcome of one engine run.  `invocations` and
`failures` are instrumentation: the former records, per resolver
actually invoked, the `forwardedIncludes` argument it received; the
latter records the includes whose resolver threw or rejected, with the
original thrown value. -/
structure TRes where
  world : World
  result : Except Thrown JSVal
  invocations : List (String × List String)
  failures : List (String × Thrown)

/-- Intermediate state of the `Promise.all` fan-out over the valid
includes. -/
structure FanOut where
  world : World
  outcomes : List (String × Except Thrown JSField)
  invocations : List (String × List String)
  failures : List (String × Thrown)

/-- Runs the fan-out of `__transform`: every valid include's task is
started (so every resolver present in the map is invoked even when a
sibling fails); a task either throws the missing-resolver error before
its `try` block, or invokes the resolver and wraps a failure into the
include-error message. -/
def runResolvers (t : TransformerDesc) (input props : JSVal) (fwd : List String) :
    List String → World → FanOut
  | [], w => ⟨w, [], [], []⟩
  | name :: rest, w =>
      match includesMapGet t name with
      | none =>
          let r := runResolvers t input props fwd rest w
          { r with
            outcomes :=
              (name, Except.error (Thrown.errObj "Include function not found in includesMap"))
                :: r.outcomes }
      | some f =>
          match f w input props fwd with
          | (w₁, Except.ok v) =>
              let r := runResolvers t input props fwd rest w₁
              { r with
                outcomes := (name, Except.ok v) :: r.outcomes
                invocations := (name, fwd) :: r.invocations }
          | (w₁, Except.error e) =>
              let r := runResolvers t input props fwd rest w₁
              { r with
                outcomes := (name, Except.error (wrapIncludeError name e)) :: r.outcomes
                invocations := (name, fwd) :: r.invocations
                failures := (name, e) :: r.failures }

/-- The rejection `Promise.all` surfaces: the first failed task in task
order (the deterministic schedule of this model). -/
def firstError : List (String × Except Thrown JSField) → Option Thrown
  | [] => none
  | (_, Except.error e) :: _ => some e
  | (_, Except.ok _) :: rest => firstError rest

/-- The write-backs `data[include] = await ...` of the successful
tasks, in task order. -/
def assignIncludes (fields : List (String × JSField)) :
    List (String × Except Thrown JSField) → List (String × JSField)
  | [] => fields
  | (name, Except.ok v) :: rest => assignIncludes (setStr fields name v) rest
  | (_, Except.error _) :: rest => assignIncludes fields rest

/-- Source: `AbstractTransformer.__transform`.  Await the base
projection; deduplicate the includes; when there are includes and the
base output is a non-null object, partition into locally handled names
and forwarded names, fan out the resolvers with the constant forwarded
list, and either merge all results into the output object or reject
with the first task failure. -/
def __transform (t : TransformerDesc) (w : World) (input props : JSVal)
    (includes₀ : List String) : TRes :=
  match t.dataFnW w input props with
  | (w₁, Except.error e) => ⟨w₁, Except.error e, [], []⟩
  | (w₁, Except.ok data) =>
      let inc := dedupFirst includes₀
      match data with
      | JSVal.vObj fields =>
          if inc.isEmpty then ⟨w₁, Except.ok (JSVal.vObj fields), [], []⟩
          else
            let others := inc.filter (fun i => !(inIncludesMap t i))
            let valid := inc.filter (fun i => inIncludesMap t i)
            let r := runResolvers t input props others valid w₁
            match firstError r.outcomes with
            | some e => ⟨r.world, Except.error e, r.invocations, r.failures⟩
            | none =>
                ⟨r.world, Except.ok (JSVal.vObj (assignIncludes fields r.outcomes)),
                  r.invocations, r.failures⟩
      | d => ⟨w₁, Except.ok d, [], []⟩

/-- Source: the high-level `transform` — combines `includes` and
`unsafeIncludes` and calls `__transform`; it drives no cache
lifecycle.  Absent optional lists are the empty list. -/
def transform (t : TransformerDesc) (w : World) (input props : JSVal)
    (includes unsafeIncludes : List String) : TRes :=
  __transform t w input props (includes ++ unsafeIncludes)

/-- Runs the per-item pipelines of a `transformMany` batch (all items
started, outcomes collected in input order). -/
def runMany (t : TransformerDesc) (props : JSVal) (inc : List String) :
    List JSVal → World → World × List (Except Thrown JSVal)
  | [], w => (w, [])
  | i :: rest, w =>
      let r := __transform t w i props inc
      let (w', rs) := runMany t props inc rest r.world
      (w', r.result :: rs)

/-- Aggregation of a batch as `Promise.all`: all values in order, or
the first rejection. -/
def aggregateAll : List (Except Thrown JSVal) → Except Thrown (List JSVal)
  | [] => Except.ok []
  | Except.ok v :: rest => (aggregateAll rest).map (v :: ·)
  | Except.error e :: _ => Except.error e

/-- Source: the high-level `transformMany` — per-item `__transform`
over the combined include list, no cache lifecycle. -/
def transformMany (t : TransformerDesc) (w : World) (inputs : List JSVal) (props : JSVal)
    (includes unsafeIncludes : List String) : World × Except Thrown (List JSVal) :=
  let (w', rs) := runMany t props (includes ++ unsafeIncludes) inputs w
  (w', aggregateAll rs)

/-! Section: the cache lifecycle coordinator. -/

/-- Result of a guarded traversal: the visited set (of signatures), the
log of nodes acted upon (each exactly at its first visit, in visit
order), and the world after the actions. -/
structure ClearRes where
  visited : List String
  cleared : List String
  world : World
deriving Repr

/-- Finds the transformer instance a signature refers to. -/
def findDesc (G : List TransformerDesc) (sig : String) : Option TransformerDesc :=
  G.find? (fun t => t.sig = sig)

/-- The generic guarded depth-first traversal over the
nested-transformer relation shared by `_clearCache` and
`disableClearCacheForTransformers`: skip an already-visited signature,
otherwise perform `act` on the node, record it, and recurse into its
nested transformers, threading the visited set.  `fuel` bounds the
recursion depth so the definition is total by structural recursion; all
uses run it with fuel `G.length + 1`, which the theorems below show is
never exhausted. -/
def dfsVisit (G : List TransformerDesc) (act : World → String → World) :
    Nat → String → ClearRes → ClearRes
  | 0, _, r => r
  | fuel + 1, sig, r =>
      if sig ∈ r.visited then r
      else
        match findDesc G sig with
        | none => r
        | some t =>
            let r₁ : ClearRes := ⟨sig :: r.visited, r.cleared ++ [sig], act r.world sig⟩
            t.nested.foldl (fun acc c => dfsVisit G act fuel c acc) r₁

/-- Node action of `_clearCache`: invoke `clear()` on every cache in
the node's `cache` map. -/
def clearNodeCaches : World → String → World
  | w, sig =>
      match lookupStr w sig with
      | none => w
      | some ns => setStr w sig ⟨ns.flag, ns.caches.map (fun p => (p.1, Cache.clear p.2))⟩

/-- Node action of `disableClearCacheForTransformers`:
`this.clearCacheOnTransform = false`. -/
def disableFlag : World → String → World
  | w, sig =>
      match lookupStr w sig with
      | none => w
      | some ns => setStr w sig ⟨false, ns.caches⟩

/-- Source: `clearCache = () => this._clearCache()` — the cascading
clear, started with an empty visited set. -/
def clearCache (G : List TransformerDesc) (sig : String) (w : World) : ClearRes :=
  dfsVisit G clearNodeCaches (G.length + 1) sig ⟨[], [], w⟩

/-- Reads a transformer's current `clearCacheOnTransform` flag. -/
def getFlag (w : World) (sig : String) : Bool :=
  ((lookupStr w sig).map (·.flag)).getD true

/-- Source: `onBeforeTransform` — suspend auto-clear on every
descendant: each nested transformer is traversed with a visited set
primed with the parent's own signature (the parent's own flag is left
untouched); the same set is threaded across all children.  The
`transformers`-map snapshot taken here and restored by
`onAfterTransform` is the identity in this model because the map is
never mutated during a call. -/
def onBeforeTransform (G : List TransformerDesc) (t : TransformerDesc) (w : World) : World :=
  (t.nested.foldl (fun acc c => dfsVisit G disableFlag (G.length + 1) c acc)
    ⟨[t.sig], [], w⟩).world

/-- Source: `AbstractTransformer._transform` (managed entry point):
combine the include lists, suspend descendants, run the engine, and —
only when the engine resolved (a rejection propagates before the clear
is reached) — cascade-clear when the transformer's own flag is still
true. -/
def _transform (G : List TransformerDesc) (t : TransformerDesc) (w : World)
    (input props : JSVal) (includes unsafeIncludes : List String) : TRes :=
  let w₁ := onBeforeTransform G t w
  let r := __transform t w₁ input props (includes ++ unsafeIncludes)
  match r.result with
  | Except.error _ => r
  | Except.ok _ =>
      if getFlag r.world t.sig then { r with world := (clearCache G t.sig r.world).world }
      else r

/-- Source: `AbstractTransformer._transformMany` (managed batch entry
point). -/
def _transformMany (G : List TransformerDesc) (t : TransformerDesc) (w : World)
    (inputs : List JSVal) (props : JSVal) (includes unsafeIncludes : List String) :
    World × Except Thrown (List JSVal) :=
  let w₁ := onBeforeTransform G t w
  let (w₂, rs) := runMany t props (includes ++ unsafeIncludes) inputs w₁
  match aggregateAll rs with
  | Except.error e => (w₂, Except.error e)
  | Except.ok vs =>
      if getFlag w₂ t.sig then ((clearCache G t.sig w₂).world, Except.ok vs)
      else (w₂, Except.ok vs)

/-! Section: concrete lifecycle scenarios.

One transformer `tA` whose data function fetches through its own cache
named `fetch` (for the auto-clear lifecycle of the managed entry
points), and a parent `tP` with a nested child `tC` constructed with
`clearCacheOnTransform: false` (for the cascade). -/

/-- The wrapped fetch function of the scenario caches: each invocation
yields a fresh resolved promise. -/
def fetchSpec : MemoCache PV := ⟨fun n _ => .promise n false, PV.truthy, none⟩

/-- The numeric view of an awaited fetch result, so the scenario data
functions can place it in their output. -/
def pvIdNum : PV → Int
  | .promise i _ => Int.ofNat i
  | .raw _ => 0

/-- A world-threading call on the cache named `cname` of the
transformer instance `sig` — `this.cache[cname].call(arg)` as performed
by user-supplied data functions and resolvers. -/
def callNodeCache (c : MemoCache PV) (sig cname : String) (w : World) (args : Option JSVal) :
    World × PV :=
  match lookupStr w sig with
  | none => (w, .raw .vUndefined)
  | some ns =>
      match lookupStr ns.caches cname with
      | none => (w, .raw .vUndefined)
      | some st =>
          let (r, st') := Cache.call c st args
          (setStr w sig ⟨ns.flag, setStr ns.caches cname st'⟩, r)

/-- A prototype-member model that ignores its arguments; scenario
transformers use it for `Object.prototype` members. -/
def inertProto : String → ResolverW :=
  fun _ => fun w _ _ _ => (w, Except.ok JSField.fUndefined)

/-- Scenario transformer `A`: no nested transformers, no own include
resolvers, its base projection fetches the input through its own
`fetch` cache. -/
def tA : TransformerDesc where
  sig := "A"
  nested := []
  own := []
  protoM := inertProto
  dataFnW := fun w input _ =>
    let (w', r) := callNodeCache fetchSpec "A" "fetch" w (some input)
    (w', Except.ok (JSVal.vNum (pvIdNum r)))

def GA : List TransformerDesc := [tA]

/-- The world of scenario `A` right after construction with the given
options. -/
def wA (opts : Option Bool) : World :=
  [("A", ⟨mkClearCacheOnTransform opts, [("fetch", ⟨[], 0⟩)]⟩)]

/-- Instrumented invocation count of a node's named cache. -/
def fetchCount (w : World) (sig cname : String) : Nat :=
  (((lookupStr w sig).bind (fun ns => lookupStr ns.caches cname)).map (·.count)).getD 0

/-- Current entries of a node's named cache. -/
def fetchEntries (w : World) (sig cname : String) : List (String × PV) :=
  (((lookupStr w sig).bind (fun ns => lookupStr ns.caches cname)).map (·.entries)).getD []

/-- Scenario child transformer `C`, constructed with
`clearCacheOnTransform: false`; its base projection fetches through its
own `fetch` cache. -/
def tC : TransformerDesc where
  sig := "C"
  nested := []
  own := []
  protoM := inertProto
  dataFnW := fun w input _ =>
    let (w', r) := callNodeCache fetchSpec "C" "fetch" w (some input)
    (w', Except.ok (JSVal.vNum (pvIdNum r)))

/-- Scenario parent transformer `P`, default options, declaring `C` as
a nested transformer; its base projection fetches through the child's
cache (the nested fetch performed during the parent's transform). -/
def tP : TransformerDesc where
  sig := "P"
  nested := ["C"]
  own := []
  protoM := inertProto
  dataFnW := fun w input _ =>
    let (w', r) := callNodeCache fetchSpec "C" "fetch" w (some input)
    (w', Except.ok (JSVal.vNum (pvIdNum r)))

def GPC : List TransformerDesc := [tP, tC]

/-- The world of the parent/child scenario right after construction:
the parent with default options, the child with
`clearCacheOnTransform: false`. -/
def wPC : World :=
  [("P", ⟨mkClearCacheOnTransform none, []⟩),
    ("C", ⟨mkClearCacheOnTransform (some false), [("fetch", ⟨[], 0⟩)]⟩)]

/-- Scenario transformer `E` for the include-resolution engine: one
own resolver `a` returning `42`, a constant base object. -/
def tEx : TransformerDesc where
  sig := "E"
  nested := []
  own := [("a", some (fun w _ _ _ => (w, Except.ok (JSField.fNum 42))))]
  protoM := inertProto
  dataFnW := fun w _ _ => (w, Except.ok (JSVal.vObj [("base", JSField.fNum 1)]))

/-- Scenario transformer `F` whose include resolver `boom` rejects with
an `Error` of message `kaboom`, next to a succeeding resolver `a`. -/
def tFail : TransformerDesc where
  sig := "F"
  nested := []
  own := [("a", some (fun w _ _ _ => (w, Except.ok (JSField.fNum 42)))),
    ("boom", some (fun w _ _ _ => (w, Except.error (Thrown.errObj "kaboom"))))]
  protoM := inertProto
  dataFnW := fun w _ _ => (w, Except.ok (JSVal.vObj []))

/-! Section: reachability along the nested-transformers relation. -/

/-- The signatures of the instances of a graph. -/
def sigsOf (G : List TransformerDesc) : List String := G.map (·.sig)

/-- The number of instance signatures not yet in the visited set — the
decreasing measure of the guarded traversal. -/
def unvisited (G : List TransformerDesc) (v : List String) : Nat :=
  ((sigsOf G).filter (fun s => decide (s ∉ v))).length

/-- Reachability from one instance to another along declared nested
transformers (factory references resolved to their memoized instance). -/
inductive Reach (G : List TransformerDesc) : String → String → Prop
  | refl (sig : String) (t : TransformerDesc) (h : findDesc G sig = some t) : Reach G sig sig
  | step (sig : String) (t : TransformerDesc) (h : findDesc G sig = some t) (c : String)
      (hc : c ∈ t.nested) {b : String} (hr : Reach G c b) : Reach G sig b

end T7M

open T7M

theorem lookupStr_setStr_self {α : Type} (l : List (String × α)) (k : String) (v : α) :
    lookupStr (setStr l k v) k = some v := by
  induction l with
  | nil => simp [setStr, lookupStr]
  | cons p rest ih =>
      by_cases h : p.1 = k
      · simp [setStr, lookupStr, h]
      · simp [setStr, lookupStr, h, ih]

theorem lookupStr_setStr_other {α : Type} (l : List (String × α)) (k k' : String) (v : α)
    (h : k ≠ k') : lookupStr (setStr l k v) k' = lookupStr l k' := by
  induction l with
  | nil => simp [setStr, lookupStr, h]
  | cons p rest ih =>
      by_cases hp : p.1 = k
      · subst hp
        simp [setStr, lookupStr, h, ih]
      · simp [setStr, lookupStr, hp, ih]

/-- Core stability property of `Cache.call`: when every result the
wrapped function can produce is truthy (as every promise is), a second
call whose arguments derive the same cache key returns the exact result
instance of the first call and leaves the state untouched — in
particular the wrapped function is not invoked again. -/
theorem cache_call_stable {α : Type} (c : MemoCache α)
    (hfn : ∀ n a, c.truthy (c.fn n a) = true)
    (st : CacheSt α) (args args' : Option JSVal)
    (hkey : deriveCacheKey c.cacheOnObjectParams args =
      deriveCacheKey c.cacheOnObjectParams args') :
    Cache.call c (Cache.call c st args).2 args' =
      ((Cache.call c st args).1, (Cache.call c st args).2) := by
  simp only [Cache.call, ← hkey]
  cases hl : lookupStr st.entries (deriveCacheKey c.cacheOnObjectParams args) with
  | some r =>
      by_cases ht : c.truthy r
      · simp [hl, ht]
      · simp [hl, ht, lookupStr_setStr_self, hfn]
  | none =>
      simp [hl, lookupStr_setStr_self, hfn]

/-! Section: key-order independence of object cache keys. -/

theorem lookupStr_perm {α : Type} {l₁ l₂ : List (String × α)} (hp : l₁.Perm l₂)
    (hnd : (l₁.map Prod.fst).Nodup) (k : String) : lookupStr l₁ k = lookupStr l₂ k := by
  induction hp with
  | nil => rfl
  | cons p _ ih =>
      simp only [List.map_cons, List.nodup_cons] at hnd
      by_cases hk : p.1 = k
      · simp [lookupStr, hk]
      · simp only [lookupStr, hk, if_false]
        exact ih hnd.2
  | swap x y l =>
      simp only [List.map_cons, List.nodup_cons, List.mem_cons] at hnd
      have hxy : y.1 ≠ x.1 := fun h => hnd.1 (Or.inl h)
      by_cases hk : y.1 = k
      · have : x.1 ≠ k := fun h => hxy (hk.trans h.symm)
        simp [lookupStr, hk, this]
      · by_cases hk' : x.1 = k
        · simp [lookupStr, hk, hk']
        · simp [lookupStr, hk, hk']
  | trans h₁ _ ih₁ ih₂ =>
      have hnd' : (_ : List (String × α)).map Prod.fst |>.Nodup :=
        ((h₁.map Prod.fst).nodup_iff).mp hnd
      exact (ih₁ hnd).trans (ih₂ hnd')

theorem sortStr_perm_eq {l₁ l₂ : List String} (hp : l₁.Perm l₂) : sortStr l₁ = sortStr l₂ :=
  List.eq_of_perm_of_sorted
    ((List.perm_insertionSort _ l₁).trans (hp.trans (List.perm_insertionSort _ l₂).symm))
    (List.sorted_insertionSort _ l₁) (List.sorted_insertionSort _ l₂)

/-- Two object arguments holding the same key/value pairs derive the
same cache key, whatever subset of keys the cache is configured on. -/
theorem deriveCacheKey_perm (params : Option (List String))
    {o₁ o₂ : List (String × JSField)} (hnd : (o₁.map Prod.fst).Nodup) (hp : o₁.Perm o₂) :
    deriveCacheKey params (some (JSVal.vObj o₁)) = deriveCacheKey params (some (JSVal.vObj o₂)) := by
  have hf : ∀ k, fieldOf o₁ k = fieldOf o₂ k := by
    intro k
    simp [fieldOf, lookupStr_perm hp hnd k]
  have hkeys : sortStr (o₁.map Prod.fst) = sortStr (o₂.map Prod.fst) :=
    sortStr_perm_eq (hp.map Prod.fst)
  cases params with
  | some keys => simp [deriveCacheKey, effectiveArg, JSVal.typeofObject, objectCacheKey, hf]
  | none =>
      simp [deriveCacheKey, effectiveArg, JSVal.typeofObject, objectCacheKey, objKeys, hf, hkeys]


/-- C1: for every cache key derived by `Cache.call`, between two
`clear()` calls the wrapped function is invoked at most once for that
key: after a call stores (or finds) the entry for a key, any further
call whose arguments derive the same key returns the exact stored
result instance and leaves the cache state — including the invocation
count — unchanged, so the wrapped function is not invoked again.  This
holds whenever the wrapped function returns only truthy results, which
is the case for every promise-returning function, rejected promises
included, so repeated same-key calls observe the same rejection. -/
theorem claim_C1_cache_at_most_once {α : Type} (c : MemoCache α)
    (hfn : ∀ n a, c.truthy (c.fn n a) = true)
    (st : CacheSt α) (args args' : Option JSVal)
    (hkey : deriveCacheKey c.cacheOnObjectParams args =
      deriveCacheKey c.cacheOnObjectParams args') :
    Cache.call c (Cache.call c st args).2 args' =
      ((Cache.call c st args).1, (Cache.call c st args).2) :=
  cache_call_stable c hfn st args args' hkey

/-- Witness for C1: a cache over a function producing rejected
promises; the second call with the same argument returns the very
promise stored by the first call and does not invoke the function. -/
theorem claim_C1_cache_at_most_once_witness :
    Cache.call rejectingFetch
        (Cache.call rejectingFetch ⟨[], 0⟩ (some (JSVal.vNum 7))).2 (some (JSVal.vNum 7)) =
      ((Cache.call rejectingFetch ⟨[], 0⟩ (some (JSVal.vNum 7))).1,
        (Cache.call rejectingFetch ⟨[], 0⟩ (some (JSVal.vNum 7))).2) :=
  claim_C1_cache_at_most_once rejectingFetch (fun _ _ => rfl) ⟨[], 0⟩ _ _ rfl

/-- C3 counterexample: the claim asserts that `null` and `undefined`
arguments map to their own cache keys, distinct from each other and
from the zero-argument sentinel key.  In the code
`const arg = args[0] ?? 'default-key'` coalesces both nullish arguments
to the sentinel, so `call(null)`, `call(undefined)` and `call()` all
derive the same key `"default-key"`. -/
theorem claim_C3_counterexample :
    deriveCacheKey none (some JSVal.vNull) = deriveCacheKey none none ∧
    deriveCacheKey none (some JSVal.vUndefined) = deriveCacheKey none none ∧
    deriveCacheKey none (some JSVal.vNull) = "default-key" := by
  decide

/-- C3 amended: negative numbers, empty strings and symbols each map to
their own deterministic stringified cache key, pairwise distinct and
distinct from the fixed sentinel key `"default-key"` used for
zero-argument calls; `null` and `undefined` arguments, however, are
both coalesced by the `?? 'default-key'` defaulting onto that same
sentinel key, so they share the zero-argument cache slot. -/
theorem claim_C3_amended :
    (deriveCacheKey none (some (JSVal.vNum (-5))) = "-5" ∧
      deriveCacheKey none (some (JSVal.vStr "")) = "" ∧
      deriveCacheKey none (some (JSVal.vSym "test")) = "Symbol(test)" ∧
      deriveCacheKey none none = "default-key") ∧
    (deriveCacheKey none (some (JSVal.vNum (-5))) ≠ deriveCacheKey none (some (JSVal.vStr "")) ∧
      deriveCacheKey none (some (JSVal.vNum (-5))) ≠ deriveCacheKey none (some (JSVal.vSym "test")) ∧
      deriveCacheKey none (some (JSVal.vStr "")) ≠ deriveCacheKey none (some (JSVal.vSym "test")) ∧
      deriveCacheKey none (some (JSVal.vNum (-5))) ≠ deriveCacheKey none none ∧
      deriveCacheKey none (some (JSVal.vStr "")) ≠ deriveCacheKey none none ∧
      deriveCacheKey none (some (JSVal.vSym "test")) ≠ deriveCacheKey none none) ∧
    (deriveCacheKey none (some JSVal.vNull) = "default-key" ∧
      deriveCacheKey none (some JSVal.vUndefined) = "default-key") := by
  decide

/-- C8: two object arguments with identical top-level key/value pairs
but different key insertion order derive the same cache key (for the
all-keys default and for any configured key subset alike), so the
second `Cache.call` hits the entry stored by the first: it returns the
stored result instance and leaves the state — invocation count
included — unchanged, i.e. the underlying function runs at most once
for the two calls. -/
theorem claim_C8_key_order_independent {o₁ o₂ : List (String × JSField)}
    (hnd : (o₁.map Prod.fst).Nodup) (hp : o₁.Perm o₂)
    {α : Type} (c : MemoCache α) (hfn : ∀ n a, c.truthy (c.fn n a) = true) (st : CacheSt α) :
    deriveCacheKey c.cacheOnObjectParams (some (JSVal.vObj o₁)) =
      deriveCacheKey c.cacheOnObjectParams (some (JSVal.vObj o₂)) ∧
    Cache.call c (Cache.call c st (some (JSVal.vObj o₁))).2 (some (JSVal.vObj o₂)) =
      ((Cache.call c st (some (JSVal.vObj o₁))).1,
        (Cache.call c st (some (JSVal.vObj o₁))).2) := by
  have hk := deriveCacheKey_perm c.cacheOnObjectParams hnd hp
  exact ⟨hk, cache_call_stable c hfn st _ _ hk⟩

/-! Properties of the guarded depth-first traversal `dfsVisit`.  The
central lemma isolates the new visits `Δ` of one traversal: they extend
the log, they and the prior visited set make up the new visited set,
they are pairwise distinct and disjoint from the prior visited set, the
world is acted on exactly once per new visit in visit order, and each
new visit is an existing instance. -/

theorem dfsVisit_spec (G : List TransformerDesc) (act : World → String → World) :
    ∀ (fuel : Nat) (sig : String) (r : ClearRes),
      ∃ Δ : List String,
        (dfsVisit G act fuel sig r).cleared = r.cleared ++ Δ ∧
        (∀ s, s ∈ (dfsVisit G act fuel sig r).visited ↔ (s ∈ Δ ∨ s ∈ r.visited)) ∧
        Δ.Nodup ∧ (∀ s ∈ Δ, s ∉ r.visited) ∧
        (dfsVisit G act fuel sig r).world = Δ.foldl act r.world ∧
        (∀ s ∈ Δ, ∃ t, findDesc G s = some t) := by
  intro fuel
  induction fuel with
  | zero =>
      intro sig r
      exact ⟨[], by simp [dfsVisit], by simp [dfsVisit], by simp, by simp, by simp [dfsVisit],
        by simp⟩
  | succ fuel ih =>
      have kids : ∀ (cs : List String) (r : ClearRes),
          ∃ Δ : List String,
            (cs.foldl (fun acc c => dfsVisit G act fuel c acc) r).cleared = r.cleared ++ Δ ∧
            (∀ s, s ∈ (cs.foldl (fun acc c => dfsVisit G act fuel c acc) r).visited ↔
              (s ∈ Δ ∨ s ∈ r.visited)) ∧
            Δ.Nodup ∧ (∀ s ∈ Δ, s ∉ r.visited) ∧
            (cs.foldl (fun acc c => dfsVisit G act fuel c acc) r).world = Δ.foldl act r.world ∧
            (∀ s ∈ Δ, ∃ t, findDesc G s = some t) := by
        intro cs
        induction cs with
        | nil =>
            intro r
            exact ⟨[], by simp, by simp, by simp, by simp, by simp, by simp⟩
        | cons c rest ihc =>
            intro r
            obtain ⟨Δ₁, hc₁, hv₁, hn₁, ha₁, hw₁, hs₁⟩ := ih c r
            obtain ⟨Δ₂, hc₂, hv₂, hn₂, ha₂, hw₂, hs₂⟩ := ihc (dfsVisit G act fuel c r)
            refine ⟨Δ₁ ++ Δ₂, ?_, ?_, ?_, ?_, ?_, ?_⟩
            · simp only [List.foldl_cons, hc₂, hc₁, List.append_assoc]
            · intro s
              simp only [List.foldl_cons, hv₂ s, hv₁ s, List.mem_append]
              tauto
            · rw [List.nodup_append]
              refine ⟨hn₁, hn₂, ?_⟩
              intro a haΔ₁ haΔ₂
              exact ha₂ a haΔ₂ ((hv₁ a).mpr (Or.inl haΔ₁))
            · intro s hs
              rcases List.mem_append.mp hs with h | h
              · exact ha₁ s h
              · intro hrv
                exact ha₂ s h ((hv₁ s).mpr (Or.inr hrv))
            · simp only [List.foldl_cons, hw₂, hw₁, List.foldl_append]
            · intro s hs
              rcases List.mem_append.mp hs with h | h
              · exact hs₁ s h
              · exact hs₂ s h
      intro sig r
      by_cases hv : sig ∈ r.visited
      · exact ⟨[], by simp [dfsVisit, hv], by simp [dfsVisit, hv], by simp, by simp,
          by simp [dfsVisit, hv], by simp⟩
      · cases hfind : findDesc G sig with
        | none =>
            exact ⟨[], by simp [dfsVisit, hv, hfind], by simp [dfsVisit, hv, hfind], by simp,
              by simp, by simp [dfsVisit, hv, hfind], by simp⟩
        | some t =>
            obtain ⟨Δk, hck, hvk, hnk, hak, hwk, hsk⟩ :=
              kids t.nested ⟨sig :: r.visited, r.cleared ++ [sig], act r.world sig⟩
            have hres : dfsVisit G act (fuel + 1) sig r =
                t.nested.foldl (fun acc c => dfsVisit G act fuel c acc)
                  ⟨sig :: r.visited, r.cleared ++ [sig], act r.world sig⟩ := by
              simp [dfsVisit, hv, hfind]
            refine ⟨sig :: Δk, ?_, ?_, ?_, ?_, ?_, ?_⟩
            · rw [hres, hck]
              simp
            · intro s
              rw [hres, hvk s]
              simp only [List.mem_cons]
              tauto
            · refine List.nodup_cons.mpr ⟨?_, hnk⟩
              intro hmem
              exact hak sig hmem (List.mem_cons_self sig r.visited)
            · intro s hs
              rcases List.mem_cons.mp hs with h | h
              · subst h; exact hv
              · intro hrv
                exact hak s h (List.mem_cons_of_mem _ hrv)
            · rw [hres, hwk]
              simp
            · intro s hs
              rcases List.mem_cons.mp hs with h | h
              · subst h; exact ⟨t, hfind⟩
              · exact hsk s h

/-- C2: only the managed entry points `_transform` and `_transformMany`
drive the auto-clear lifecycle.  With default construction (flag unset,
hence true) one managed call clears the caches (the fetch ran once and
its entry is gone), so a second identical managed call re-invokes the
wrapped fetch (count 2) — likewise for `_transformMany`; with
`clearCacheOnTransform: false` the second managed call reuses the
cached entry (count stays 1); the high-level `transform` and
`transformMany`, even on a default (flag `true`) transformer, never
trigger the clear: after two identical calls the count is still 1 and
the entry is still present. -/
theorem claim_C2_managed_lifecycle_autoclear :
    (let r₁ := _transform GA tA (wA none) (JSVal.vNum 1) JSVal.vUndefined [] []
      let r₂ := _transform GA tA r₁.world (JSVal.vNum 1) JSVal.vUndefined [] []
      fetchCount r₁.world "A" "fetch" = 1 ∧ fetchEntries r₁.world "A" "fetch" = [] ∧
        fetchCount r₂.world "A" "fetch" = 2) ∧
    (let s₁ := _transform GA tA (wA (some false)) (JSVal.vNum 1) JSVal.vUndefined [] []
      let s₂ := _transform GA tA s₁.world (JSVal.vNum 1) JSVal.vUndefined [] []
      fetchCount s₂.world "A" "fetch" = 1 ∧ fetchEntries s₂.world "A" "fetch" ≠ []) ∧
    (let h₁ := transform tA (wA none) (JSVal.vNum 1) JSVal.vUndefined [] []
      let h₂ := transform tA h₁.world (JSVal.vNum 1) JSVal.vUndefined [] []
      fetchCount h₂.world "A" "fetch" = 1 ∧ fetchEntries h₂.world "A" "fetch" ≠ [] ∧
        getFlag h₂.world "A" = true) ∧
    (let m₁ := _transformMany GA tA (wA none) [JSVal.vNum 1] JSVal.vUndefined [] []
      let m₂ := _transformMany GA tA m₁.1 [JSVal.vNum 1] JSVal.vUndefined [] []
      fetchCount m₂.1 "A" "fetch" = 2) ∧
    (let n₁ := transformMany tA (wA none) [JSVal.vNum 1] JSVal.vUndefined [] []
      let n₂ := transformMany tA n₁.1 [JSVal.vNum 1] JSVal.vUndefined [] []
      fetchCount n₂.1 "A" "fetch" = 1 ∧ fetchEntries n₂.1 "A" "fetch" ≠ []) := by
  decide

/-- Witness for C8: the objects `{b:"hello", a:1}` and `{a:1, b:"hello"}`
hit the same cache entry of a promise cache. -/
theorem claim_C8_key_order_independent_witness :
    deriveCacheKey rejectingFetch.cacheOnObjectParams
        (some (JSVal.vObj [("b", .fStr "hello"), ("a", .fNum 1)])) =
      deriveCacheKey rejectingFetch.cacheOnObjectParams
        (some (JSVal.vObj [("a", .fNum 1), ("b", .fStr "hello")])) ∧
    Cache.call rejectingFetch
        (Cache.call rejectingFetch ⟨[], 0⟩
          (some (JSVal.vObj [("b", .fStr "hello"), ("a", .fNum 1)]))).2
        (some (JSVal.vObj [("a", .fNum 1), ("b", .fStr "hello")])) =
      ((Cache.call rejectingFetch ⟨[], 0⟩
          (some (JSVal.vObj [("b", .fStr "hello"), ("a", .fNum 1)]))).1,
        (Cache.call rejectingFetch ⟨[], 0⟩
          (some (JSVal.vObj [("b", .fStr "hello"), ("a", .fNum 1)]))).2) :=
  claim_C8_key_order_independent (by decide) (by decide) rejectingFetch (fun _ _ => rfl) ⟨[], 0⟩

theorem dfsVisit_visited_mono (G : List TransformerDesc) (act : World → String → World)
    (fuel : Nat) (sig : String) (r : ClearRes) :
    r.visited ⊆ (dfsVisit G act fuel sig r).visited := by
  obtain ⟨Δ, _, hv, _⟩ := dfsVisit_spec G act fuel sig r
  intro s hs
  exact (hv s).mpr (Or.inr hs)

theorem dfsFold_visited_mono (G : List TransformerDesc) (act : World → String → World)
    (fuel : Nat) : ∀ (cs : List String) (r : ClearRes),
    r.visited ⊆ (cs.foldl (fun acc c => dfsVisit G act fuel c acc) r).visited := by
  intro cs
  induction cs with
  | nil => intro r; exact fun s hs => hs
  | cons c rest ih =>
      intro r s hs
      exact ih (dfsVisit G act fuel c r) (dfsVisit_visited_mono G act fuel c r hs)

theorem dfsVisit_entry (G : List TransformerDesc) (act : World → String → World)
    (fuel : Nat) (hf : fuel ≠ 0) (sig : String) (r : ClearRes)
    (h : sig ∈ r.visited ∨ ∃ t, findDesc G sig = some t) :
    sig ∈ (dfsVisit G act fuel sig r).visited := by
  cases fuel with
  | zero => exact absurd rfl hf
  | succ fuel =>
      by_cases hv : sig ∈ r.visited
      · exact dfsVisit_visited_mono G act _ sig r hv
      · rcases h with h | ⟨t, ht⟩
        · exact absurd h hv
        · have : dfsVisit G act (fuel + 1) sig r =
              t.nested.foldl (fun acc c => dfsVisit G act fuel c acc)
                ⟨sig :: r.visited, r.cleared ++ [sig], act r.world sig⟩ := by
            simp [dfsVisit, hv, ht]
          rw [this]
          exact dfsFold_visited_mono G act fuel t.nested _ (List.mem_cons_self _ _)

theorem dfsFold_entry (G : List TransformerDesc) (act : World → String → World)
    (fuel : Nat) (hf : fuel ≠ 0) : ∀ (cs : List String) (r : ClearRes) (c : String),
    c ∈ cs → (c ∈ r.visited ∨ ∃ t, findDesc G c = some t) →
    c ∈ ((cs.foldl (fun acc x => dfsVisit G act fuel x acc) r)).visited := by
  intro cs
  induction cs with
  | nil => intro r c hc; exact absurd hc (List.not_mem_nil c)
  | cons x rest ih =>
      intro r c hc hcase
      rcases List.mem_cons.mp hc with h | h
      · subst h
        exact dfsFold_visited_mono G act fuel rest _ (dfsVisit_entry G act fuel hf c r hcase)
      · refine ih (dfsVisit G act fuel x r) c h ?_
        rcases hcase with h' | h'
        · exact Or.inl (dfsVisit_visited_mono G act fuel x r h')
        · exact Or.inr h'

-- findDesc facts
theorem findDesc_mem_sigs {G : List TransformerDesc} {sig : String} {t : TransformerDesc}
    (h : findDesc G sig = some t) : sig ∈ sigsOf G := by
  have hmem := List.mem_of_find?_eq_some h
  have hp := List.find?_some h
  simp only [decide_eq_true_eq] at hp
  subst hp
  exact List.mem_map_of_mem _ hmem

theorem Reach_found {G : List TransformerDesc} {a b : String} (h : Reach G a b) :
    ∃ t, findDesc G a = some t := by
  cases h with
  | refl _ t ht => exact ⟨t, ht⟩
  | step _ t ht c hc hr => exact ⟨t, ht⟩

-- filter length lemmas
theorem length_filter_mono {α : Type} {l : List α} {p q : α → Bool}
    (himp : ∀ x ∈ l, q x = true → p x = true) :
    (l.filter q).length ≤ (l.filter p).length := by
  induction l with
  | nil => simp
  | cons x rest ih =>
      have ih' := ih (fun y hy => himp y (List.mem_cons_of_mem _ hy))
      by_cases hq : q x = true
      · have hp := himp x (List.mem_cons_self _ _) hq
        simp [List.filter_cons, hq, hp]
        exact ih'
      · simp only [List.filter_cons, Bool.not_eq_true] at hq ⊢
        rw [hq]
        by_cases hp : p x = true
        · simp [hp]
          exact Nat.le_succ_of_le ih'
        · simp only [Bool.not_eq_true] at hp
          rw [hp]
          simpa using ih'

theorem length_filter_lt {α : Type} {l : List α} {p q : α → Bool}
    (himp : ∀ x ∈ l, q x = true → p x = true) (a : α) (ha : a ∈ l)
    (hpa : p a = true) (hqa : q a = false) :
    (l.filter q).length < (l.filter p).length := by
  induction l with
  | nil => exact absurd ha (List.not_mem_nil a)
  | cons x rest ih =>
      have himp' : ∀ y ∈ rest, q y = true → p y = true :=
        fun y hy => himp y (List.mem_cons_of_mem _ hy)
      rcases List.mem_cons.mp ha with h | h
      · subst h
        simp only [List.filter_cons, hqa, hpa]
        simp only [Bool.false_eq_true, if_false, if_true]
        exact Nat.lt_succ_of_le (length_filter_mono himp')
      · by_cases hq : q x = true
        · have hp := himp x (List.mem_cons_self _ _) hq
          simp only [List.filter_cons, hq, hp, if_true, List.length_cons]
          exact Nat.succ_lt_succ (ih himp' h)
        · simp only [Bool.not_eq_true] at hq
          simp only [List.filter_cons, hq, Bool.false_eq_true, if_false]
          by_cases hp : p x = true
          · simp only [hp, if_true, List.length_cons]
            exact Nat.lt_succ_of_lt (ih himp' h)
          · simp only [Bool.not_eq_true] at hp
            rw [hp]
            simp only [Bool.false_eq_true, if_false]
            exact ih himp' h

theorem unvisited_anti (G : List TransformerDesc) {v v' : List String} (h : v ⊆ v') :
    unvisited G v' ≤ unvisited G v := by
  refine length_filter_mono ?_
  intro x _ hx
  simp only [decide_eq_true_eq] at hx ⊢
  exact fun hxv => hx (h hxv)

theorem unvisited_cons_lt (G : List TransformerDesc) {sig : String} {v : List String}
    (hs : sig ∈ sigsOf G) (hv : sig ∉ v) :
    unvisited G (sig :: v) < unvisited G v := by
  refine length_filter_lt ?_ sig hs ?_ ?_
  · intro x _ hx
    simp only [decide_eq_true_eq, List.mem_cons] at hx ⊢
    exact fun hxv => hx (Or.inr hxv)
  · simp [hv]
  · simp

theorem unvisited_pos (G : List TransformerDesc) {sig : String} {v : List String}
    (hs : sig ∈ sigsOf G) (hv : sig ∉ v) : 1 ≤ unvisited G v := by
  have := unvisited_cons_lt G hs hv
  omega

theorem dfsVisit_sound (G : List TransformerDesc) (act : World → String → World) :
    ∀ (fuel : Nat) (sig : String) (r : ClearRes) (s : String),
    s ∈ (dfsVisit G act fuel sig r).visited → s ∈ r.visited ∨ Reach G sig s := by
  intro fuel
  induction fuel with
  | zero => intro sig r s hs; exact Or.inl (by simpa [dfsVisit] using hs)
  | succ fuel ih =>
      have kids : ∀ (cs : List String) (r : ClearRes) (s : String),
          s ∈ (cs.foldl (fun acc c => dfsVisit G act fuel c acc) r).visited →
          s ∈ r.visited ∨ ∃ c ∈ cs, Reach G c s := by
        intro cs
        induction cs with
        | nil => intro r s hs; exact Or.inl (by simpa using hs)
        | cons c rest ihc =>
            intro r s hs
            rcases ihc (dfsVisit G act fuel c r) s (by simpa using hs) with h | ⟨c', hc', hr⟩
            · rcases ih c r s h with h' | h'
              · exact Or.inl h'
              · exact Or.inr ⟨c, List.mem_cons_self _ _, h'⟩
            · exact Or.inr ⟨c', List.mem_cons_of_mem _ hc', hr⟩
      intro sig r s hs
      by_cases hv : sig ∈ r.visited
      · simp only [dfsVisit, hv, if_true] at hs
        exact Or.inl hs
      · cases hfind : findDesc G sig with
        | none =>
            simp only [dfsVisit, hv, if_false, hfind] at hs
            exact Or.inl hs
        | some t =>
            have hres : dfsVisit G act (fuel + 1) sig r =
                t.nested.foldl (fun acc c => dfsVisit G act fuel c acc)
                  ⟨sig :: r.visited, r.cleared ++ [sig], act r.world sig⟩ := by
              simp [dfsVisit, hv, hfind]
            rw [hres] at hs
            rcases kids t.nested _ s hs with h | ⟨c, hc, hr⟩
            · rcases List.mem_cons.mp h with h' | h'
              · exact Or.inr (h' ▸ Reach.refl sig t hfind)
              · exact Or.inl h'
            · exact Or.inr (Reach.step sig t hfind c hc hr)

theorem dfsVisit_closed (G : List TransformerDesc) (act : World → String → World) :
    ∀ (n fuel : Nat) (sig : String) (r : ClearRes),
    unvisited G r.visited ≤ n → unvisited G r.visited < fuel →
    ∀ s, s ∈ (dfsVisit G act fuel sig r).visited → s ∉ r.visited →
      ∀ ts, findDesc G s = some ts → ∀ c ∈ ts.nested, (∃ tc, findDesc G c = some tc) →
        c ∈ (dfsVisit G act fuel sig r).visited := by
  intro n
  induction n with
  | zero =>
      intro fuel sig r hn hfuel s hs hnew ts hts c hc hcf
      -- measure 0: the nontrivial branch is impossible, so nothing is new
      exfalso
      cases fuel with
      | zero => exact hnew (by simpa [dfsVisit] using hs)
      | succ fuel =>
          by_cases hv : sig ∈ r.visited
          · exact hnew (by simpa [dfsVisit, hv] using hs)
          · cases hfind : findDesc G sig with
            | none => exact hnew (by simpa [dfsVisit, hv, hfind] using hs)
            | some t =>
                have h1 : 1 ≤ unvisited G r.visited :=
                  unvisited_pos G (findDesc_mem_sigs hfind) hv
                omega
  | succ n ihn =>
      intro fuel sig r hn hfuel s hs hnew ts hts c hc hcf
      cases fuel with
      | zero => exact absurd hfuel (by omega)
      | succ fuel =>
          by_cases hv : sig ∈ r.visited
          · exact absurd (by simpa [dfsVisit, hv] using hs) hnew
          · cases hfind : findDesc G sig with
            | none => exact absurd (by simpa [dfsVisit, hv, hfind] using hs) hnew
            | some t =>
                have hres : dfsVisit G act (fuel + 1) sig r =
                    t.nested.foldl (fun acc c => dfsVisit G act fuel c acc)
                      ⟨sig :: r.visited, r.cleared ++ [sig], act r.world sig⟩ := by
                  simp [dfsVisit, hv, hfind]
                set r₁ : ClearRes := ⟨sig :: r.visited, r.cleared ++ [sig], act r.world sig⟩
                  with hr₁
                have hm₁ : unvisited G r₁.visited < unvisited G r.visited := by
                  simpa [hr₁] using unvisited_cons_lt G (findDesc_mem_sigs hfind) hv
                have hfpos : fuel ≠ 0 := by
                  have h1 : 1 ≤ unvisited G r.visited :=
                    unvisited_pos G (findDesc_mem_sigs hfind) hv
                  omega
                -- fold closure: any node newly visited inside the fold has its
                -- findable children visited by the end of the fold
                have foldClosed : ∀ (cs : List String) (racc : ClearRes),
                    unvisited G racc.visited ≤ n → unvisited G racc.visited < fuel →
                    ∀ s', s' ∈ (cs.foldl (fun acc c => dfsVisit G act fuel c acc) racc).visited →
                      s' ∉ racc.visited →
                      ∀ ts', findDesc G s' = some ts' → ∀ c' ∈ ts'.nested,
                        (∃ tc, findDesc G c' = some tc) →
                        c' ∈ (cs.foldl (fun acc c => dfsVisit G act fuel c acc) racc).visited := by
                  intro cs
                  induction cs with
                  | nil =>
                      intro racc _ _ s' hs' hnew'
                      exact absurd (by simpa using hs') hnew'
                  | cons x rest ihcs =>
                      intro racc hle hlt s' hs' hnew' ts' hts' c' hc' hcf'
                      simp only [List.foldl_cons] at hs' ⊢
                      by_cases hmid : s' ∈ (dfsVisit G act fuel x racc).visited
                      · have := ihn fuel x racc hle hlt s' hmid hnew' ts' hts' c' hc' hcf'
                        exact dfsFold_visited_mono G act fuel rest _ this
                      · have hle' : unvisited G (dfsVisit G act fuel x racc).visited ≤ n :=
                          le_trans (unvisited_anti G (dfsVisit_visited_mono G act fuel x racc)) hle
                        have hlt' : unvisited G (dfsVisit G act fuel x racc).visited < fuel :=
                          lt_of_le_of_lt (unvisited_anti G (dfsVisit_visited_mono G act fuel x racc)) hlt
                        exact ihcs (dfsVisit G act fuel x racc) hle' hlt' s' hs' hmid ts' hts' c' hc' hcf'
                have hle₁ : unvisited G r₁.visited ≤ n := by omega
                have hlt₁ : unvisited G r₁.visited < fuel := by omega
                rw [hres] at hs ⊢
                by_cases hsig : s ∈ r₁.visited
                · -- s = sig: its children are entered by the fold itself
                  have hseq : s = sig := by
                    rcases List.mem_cons.mp (by simpa [hr₁] using hsig) with h | h
                    · exact h
                    · exact absurd h hnew
                  subst hseq
                  have htts : ts = t := by
                    rw [hts] at hfind
                    exact Option.some_injective _ hfind
                  rw [htts] at hc
                  exact dfsFold_entry G act fuel hfpos t.nested r₁ c hc (Or.inr hcf)
                · exact foldClosed t.nested r₁ hle₁ hlt₁ s hs hsig ts hts c hc hcf

theorem dfsVisit_fuel_stable (G : List TransformerDesc) (act : World → String → World) :
    ∀ (n f₁ f₂ : Nat) (sig : String) (r : ClearRes),
    unvisited G r.visited ≤ n → unvisited G r.visited < f₁ → unvisited G r.visited < f₂ →
    dfsVisit G act f₁ sig r = dfsVisit G act f₂ sig r := by
  intro n
  induction n with
  | zero =>
      intro f₁ f₂ sig r hn h₁ h₂
      cases f₁ with
      | zero => omega
      | succ f₁ =>
          cases f₂ with
          | zero => omega
          | succ f₂ =>
              by_cases hv : sig ∈ r.visited
              · simp [dfsVisit, hv]
              · cases hfind : findDesc G sig with
                | none => simp [dfsVisit, hv, hfind]
                | some t =>
                    have h1 : 1 ≤ unvisited G r.visited :=
                      unvisited_pos G (findDesc_mem_sigs hfind) hv
                    omega
  | succ n ihn =>
      intro f₁ f₂ sig r hn h₁ h₂
      cases f₁ with
      | zero => omega
      | succ f₁ =>
          cases f₂ with
          | zero => omega
          | succ f₂ =>
              by_cases hv : sig ∈ r.visited
              · simp [dfsVisit, hv]
              · cases hfind : findDesc G sig with
                | none => simp [dfsVisit, hv, hfind]
                | some t =>
                    have hm₁ : unvisited G (sig :: r.visited) < unvisited G r.visited :=
                      unvisited_cons_lt G (findDesc_mem_sigs hfind) hv
                    have foldStable : ∀ (cs : List String) (racc : ClearRes),
                        unvisited G racc.visited ≤ n → unvisited G racc.visited < f₁ →
                        unvisited G racc.visited < f₂ →
                        cs.foldl (fun acc c => dfsVisit G act f₁ c acc) racc =
                          cs.foldl (fun acc c => dfsVisit G act f₂ c acc) racc := by
                      intro cs
                      induction cs with
                      | nil => intro racc _ _ _; rfl
                      | cons x rest ihcs =>
                          intro racc hle hlt₁ hlt₂
                          simp only [List.foldl_cons]
                          rw [ihn f₁ f₂ x racc hle hlt₁ hlt₂]
                          refine ihcs (dfsVisit G act f₂ x racc) ?_ ?_ ?_
                          · exact le_trans
                              (unvisited_anti G (dfsVisit_visited_mono G act f₂ x racc)) hle
                          · exact lt_of_le_of_lt
                              (unvisited_anti G (dfsVisit_visited_mono G act f₂ x racc)) hlt₁
                          · exact lt_of_le_of_lt
                              (unvisited_anti G (dfsVisit_visited_mono G act f₂ x racc)) hlt₂
                    have e₁ : dfsVisit G act (f₁ + 1) sig r =
                        t.nested.foldl (fun acc c => dfsVisit G act f₁ c acc)
                          ⟨sig :: r.visited, r.cleared ++ [sig], act r.world sig⟩ := by
                      simp [dfsVisit, hv, hfind]
                    have e₂ : dfsVisit G act (f₂ + 1) sig r =
                        t.nested.foldl (fun acc c => dfsVisit G act f₂ c acc)
                          ⟨sig :: r.visited, r.cleared ++ [sig], act r.world sig⟩ := by
                      simp [dfsVisit, hv, hfind]
                    rw [e₁, e₂]
                    exact foldStable t.nested _ (by simp; omega) (by simp; omega) (by simp; omega)

theorem Reach_complete (G : List TransformerDesc) (act : World → String → World)
    (fuel : Nat) (hfuel : unvisited G [] < fuel) (root : String) (w : World)
    (cl : List String) :
    ∀ s, Reach G root s → s ∈ (dfsVisit G act fuel root ⟨[], cl, w⟩).visited := by
  have hfpos : fuel ≠ 0 := by omega
  have hroot : ∀ b, Reach G root b →
      root ∈ (dfsVisit G act fuel root ⟨[], cl, w⟩).visited := by
    intro b hb
    exact dfsVisit_entry G act fuel hfpos root _ (Or.inr (Reach_found hb))
  intro s hs
  -- walk the path through the closed visited set
  have hgen : ∀ a b, Reach G a b →
      a ∈ (dfsVisit G act fuel root ⟨[], cl, w⟩).visited →
      b ∈ (dfsVisit G act fuel root ⟨[], cl, w⟩).visited := by
    intro a b hab
    induction hab with
    | refl _ _ _ => exact fun h => h
    | step sig t ht c hc hr ihr =>
        intro hsig
        refine ihr ?_
        refine dfsVisit_closed G act (unvisited G ([] : List String)) fuel root _
          le_rfl hfuel sig hsig ?_ t ht c hc (Reach_found hr)
        simp
  exact hgen root s hs (hroot s hs)

theorem getFlag_clearNodeCaches (w : World) (x s : String) :
    getFlag (clearNodeCaches w x) s = getFlag w s := by
  cases hl : lookupStr w x with
  | none => simp [clearNodeCaches, hl]
  | some ns =>
      by_cases hxs : x = s
      · subst hxs
        simp [clearNodeCaches, hl, getFlag, lookupStr_setStr_self]
      · simp [clearNodeCaches, hl, getFlag, lookupStr_setStr_other w x s _ hxs]

theorem foldl_clear_flags : ∀ (Δ : List String) (w : World) (s : String),
    getFlag (Δ.foldl clearNodeCaches w) s = getFlag w s := by
  intro Δ
  induction Δ with
  | nil => intro w s; rfl
  | cons x rest ih =>
      intro w s
      simp only [List.foldl_cons, ih, getFlag_clearNodeCaches]

theorem lookupStr_map {α β : Type} (f : α → β) (l : List (String × α)) (k : String) :
    lookupStr (l.map (fun p => (p.1, f p.2))) k = (lookupStr l k).map f := by
  induction l with
  | nil => rfl
  | cons p rest ih =>
      by_cases hp : p.1 = k
      · simp [lookupStr, hp]
      · simp [lookupStr, hp, ih]

theorem fetchEntries_clear_self (w : World) (s cname : String) :
    fetchEntries (clearNodeCaches w s) s cname = [] := by
  cases hl : lookupStr w s with
  | none => simp [clearNodeCaches, hl, fetchEntries]
  | some ns =>
      simp only [clearNodeCaches, hl, fetchEntries, lookupStr_setStr_self, Option.some_bind,
        lookupStr_map]
      cases h2 : lookupStr ns.caches cname with
      | none => simp [h2]
      | some st => simp [h2, Cache.clear]

theorem fetchEntries_clear_pres (w : World) (x s cname : String)
    (h : fetchEntries w s cname = []) :
    fetchEntries (clearNodeCaches w x) s cname = [] := by
  by_cases hxs : x = s
  · subst hxs
    exact fetchEntries_clear_self w x cname
  · cases hl : lookupStr w x with
    | none => simpa [clearNodeCaches, hl] using h
    | some ns =>
        rw [← h]
        simp [clearNodeCaches, hl, fetchEntries, lookupStr_setStr_other w x s _ hxs]

theorem foldl_clear_keep : ∀ (Δ : List String) (w : World) (s cname : String),
    fetchEntries w s cname = [] →
    fetchEntries (Δ.foldl clearNodeCaches w) s cname = [] := by
  intro Δ
  induction Δ with
  | nil => intro w s cname h; exact h
  | cons x rest ih =>
      intro w s cname h
      exact ih _ s cname (fetchEntries_clear_pres w x s cname h)

theorem foldl_clear_empties : ∀ (Δ : List String) (w : World) (s cname : String),
    s ∈ Δ → fetchEntries (Δ.foldl clearNodeCaches w) s cname = [] := by
  intro Δ
  induction Δ with
  | nil => intro w s cname h; exact absurd h (List.not_mem_nil s)
  | cons x rest ih =>
      intro w s cname h
      rcases List.mem_cons.mp h with h' | h'
      · subst h'
        exact foldl_clear_keep rest _ s cname (fetchEntries_clear_self w s cname)
      · exact ih _ s cname h'

theorem clearCache_flags (G : List TransformerDesc) (sig : String) (w : World) (s : String) :
    getFlag ((clearCache G sig w).world) s = getFlag w s := by
  obtain ⟨Δ, hc, hv, hn, ha, hw, hs⟩ :=
    dfsVisit_spec G clearNodeCaches (G.length + 1) sig ⟨[], [], w⟩
  unfold clearCache
  rw [hw]
  exact foldl_clear_flags Δ w s

theorem clearCache_empties (G : List TransformerDesc) (sig : String) (w : World) (s : String)
    (h : s ∈ (clearCache G sig w).cleared) (cname : String) :
    fetchEntries ((clearCache G sig w).world) s cname = [] := by
  obtain ⟨Δ, hc, hv, hn, ha, hw, hs⟩ :=
    dfsVisit_spec G clearNodeCaches (G.length + 1) sig ⟨[], [], w⟩
  unfold clearCache at h ⊢
  rw [hw]
  refine foldl_clear_empties Δ w s cname ?_
  rw [hc] at h
  simpa using h

/-- C5: for any nested-transformer graph, cyclic graphs included (in
particular two transformers each declaring the other as nested),
`clearCache()` terminates and clears each reachable transformer's
caches exactly once: the log of nodes whose caches were cleared is
duplicate-free, contains exactly the signatures reachable from the
invoking transformer (each identified by its signature and visited at
most once through the visited set threaded through the recursion),
every logged node's caches end up empty, and the traversal result is
independent of any recursion-depth bound beyond the number of
instances — the formal counterpart of termination on cycles. -/
theorem claim_C5_clearCache_cycle_safe (G : List TransformerDesc) (root : String) (w : World) :
    (clearCache G root w).cleared.Nodup ∧
    (∀ s, s ∈ (clearCache G root w).cleared ↔ Reach G root s) ∧
    (∀ s, s ∈ (clearCache G root w).cleared → ∀ cname,
      fetchEntries ((clearCache G root w).world) s cname = []) ∧
    (∀ fuel, G.length < fuel →
      dfsVisit G clearNodeCaches fuel root ⟨[], [], w⟩ = clearCache G root w) := by
  have hmeasure : unvisited G ([] : List String) ≤ G.length := by
    simp [unvisited, sigsOf]
  obtain ⟨Δ, hc, hv, hn, ha, hw, hsg⟩ :=
    dfsVisit_spec G clearNodeCaches (G.length + 1) root ⟨[], [], w⟩
  have hcleared : (clearCache G root w).cleared = Δ := by
    unfold clearCache
    simpa using hc
  have hvisited : ∀ s, s ∈ (dfsVisit G clearNodeCaches (G.length + 1) root
      (⟨[], [], w⟩ : ClearRes)).visited ↔ s ∈ Δ := by
    intro s
    rw [hv s]
    simp
  refine ⟨?_, ?_, ?_, ?_⟩
  · rw [hcleared]; exact hn
  · intro s
    rw [hcleared]
    constructor
    · intro hs
      have hsv : s ∈ (dfsVisit G clearNodeCaches (G.length + 1) root
          (⟨[], [], w⟩ : ClearRes)).visited := (hvisited s).mpr hs
      rcases dfsVisit_sound G clearNodeCaches (G.length + 1) root ⟨[], [], w⟩ s hsv with h | h
      · exact absurd h (List.not_mem_nil s)
      · exact h
    · intro hr
      have := Reach_complete G clearNodeCaches (G.length + 1) (by omega) root w [] s hr
      exact (hvisited s).mp this
  · exact fun s hs cname => clearCache_empties G root w s hs cname
  · intro fuel hfuel
    unfold clearCache
    exact dfsVisit_fuel_stable G clearNodeCaches (unvisited G []) fuel (G.length + 1) root
      ⟨[], [], w⟩ le_rfl (by simp; omega) (by simp; omega)

/-- C9: after a managed `_transform` on a parent whose own
`clearCacheOnTransform` is true, the finalizing cascade empties the
caches of every reachable transformer — including a nested child
constructed with `clearCacheOnTransform: false` (whose flag remains
false); that flag only suppresses the child's own auto-clear at the
end of its own managed call (shown: the child's managed call leaves
its cache populated).  In general the cascading clear never consults
`clearCacheOnTransform`: it preserves every flag and empties the
caches of every node it visits. -/
theorem claim_C9_cascade_overrides_child_flag :
    (let p := _transform GPC tP wPC (JSVal.vNum 1) JSVal.vUndefined [] [];
      fetchCount p.world "C" "fetch" = 1 ∧ fetchEntries p.world "C" "fetch" = [] ∧
        getFlag p.world "C" = false) ∧
    (let c := _transform GPC tC wPC (JSVal.vNum 1) JSVal.vUndefined [] [];
      fetchCount c.world "C" "fetch" = 1 ∧ fetchEntries c.world "C" "fetch" ≠ []) ∧
    (∀ (G : List TransformerDesc) (sig : String) (w : World) (s : String),
      getFlag ((clearCache G sig w).world) s = getFlag w s) ∧
    (∀ (G : List TransformerDesc) (sig : String) (w : World) (s : String),
      s ∈ (clearCache G sig w).cleared → ∀ cname,
        fetchEntries ((clearCache G sig w).world) s cname = []) := by
  refine ⟨by decide, by decide, ?_, ?_⟩
  · exact fun G sig w s => clearCache_flags G sig w s
  · exact fun G sig w s h cname => clearCache_empties G sig w s h cname

theorem claim_C9_cascade_overrides_child_flag_witness :
    fetchEntries
      ((clearCache GPC "P"
        [("P", ⟨true, []⟩),
          ("C", ⟨false, [("fetch", ⟨[("1", PV.promise 0 false)], 1⟩)]⟩)]).world)
      "C" "fetch" = [] :=
  claim_C9_cascade_overrides_child_flag.2.2.2 GPC "P"
    [("P", ⟨true, []⟩), ("C", ⟨false, [("fetch", ⟨[("1", PV.promise 0 false)], 1⟩)]⟩)]
    "C" (by decide) "fetch"

theorem mem_dedupAux : ∀ (l seen : List String) (x : String),
    x ∈ dedupAux l seen ↔ (x ∈ l ∧ x ∉ seen) := by
  intro l
  induction l with
  | nil => intro seen x; simp [dedupAux]
  | cons y rest ih =>
      intro seen x
      by_cases hy : y ∈ seen
      · rw [dedupAux, if_pos hy, ih]
        constructor
        · rintro ⟨hx, hxs⟩
          exact ⟨List.mem_cons_of_mem _ hx, hxs⟩
        · rintro ⟨hx, hxs⟩
          rcases List.mem_cons.mp hx with h | h
          · subst h; exact absurd hy hxs
          · exact ⟨h, hxs⟩
      · rw [dedupAux, if_neg hy]
        by_cases hxy : x = y
        · subst hxy
          simp [hy]
        · simp only [List.mem_cons, hxy, false_or]
          rw [ih]
          simp only [List.mem_cons, hxy, false_or]

theorem mem_dedupFirst (l : List String) (x : String) : x ∈ dedupFirst l ↔ x ∈ l := by
  rw [dedupFirst, mem_dedupAux]
  simp

theorem runResolvers_invocations_spec (t : TransformerDesc) (input props : JSVal)
    (fwd : List String) : ∀ (cs : List String) (w : World) (n : String) (f : List String),
    (n, f) ∈ (runResolvers t input props fwd cs w).invocations →
    f = fwd ∧ n ∈ cs ∧ (includesMapGet t n).isSome = true := by
  intro cs
  induction cs with
  | nil => intro w n f h; exact absurd h (List.not_mem_nil _)
  | cons c rest ih =>
      intro w n f h
      cases hget : includesMapGet t c with
      | none =>
          simp only [runResolvers, hget] at h
          obtain ⟨hf, hn, hs⟩ := ih _ n f h
          exact ⟨hf, List.mem_cons_of_mem _ hn, hs⟩
      | some g =>
          simp only [runResolvers, hget] at h
          cases hcall : g w input props fwd with
          | mk w₁ res =>
              rw [hcall] at h
              cases res with
              | ok v =>
                  simp only [List.mem_cons] at h
                  rcases h with h' | h'
                  · have hnf : n = c ∧ f = fwd := by simpa using h'
                    refine ⟨hnf.2, hnf.1 ▸ List.mem_cons_self _ _, ?_⟩
                    rw [hnf.1, hget]
                    rfl
                  · obtain ⟨hf, hn, hs⟩ := ih _ n f h'
                    exact ⟨hf, List.mem_cons_of_mem _ hn, hs⟩
              | error e =>
                  simp only [List.mem_cons] at h
                  rcases h with h' | h'
                  · have hnf : n = c ∧ f = fwd := by simpa using h'
                    refine ⟨hnf.2, hnf.1 ▸ List.mem_cons_self _ _, ?_⟩
                    rw [hnf.1, hget]
                    rfl
                  · obtain ⟨hf, hn, hs⟩ := ih _ n f h'
                    exact ⟨hf, List.mem_cons_of_mem _ hn, hs⟩

theorem __transform_invocations_spec (t : TransformerDesc) (w : World) (input props : JSVal)
    (inc₀ : List String) (n : String) (f : List String)
    (h : (n, f) ∈ (__transform t w input props inc₀).invocations) :
    f = (dedupFirst inc₀).filter (fun i => !(inIncludesMap t i)) ∧
    n ∈ (dedupFirst inc₀).filter (fun i => inIncludesMap t i) ∧
    (includesMapGet t n).isSome = true := by
  simp only [__transform] at h
  split at h
  next w₁ e heq => exact absurd h (List.not_mem_nil _)
  next w₁ data heq =>
    split at h
    next fields =>
      split at h
      next hemp => exact absurd h (List.not_mem_nil _)
      next hemp =>
        split at h
        next e heq2 => exact runResolvers_invocations_spec t input props _ _ _ n f h
        next heq2 => exact runResolvers_invocations_spec t input props _ _ _ n f h
    next d hne => exact absurd h (List.not_mem_nil _)

theorem runResolvers_firstError (t : TransformerDesc) (input props : JSVal)
    (fwd : List String) : ∀ (cs : List String) (w : World),
    (∀ nm ∈ cs, (includesMapGet t nm).isSome = true) →
    firstError ((runResolvers t input props fwd cs w).outcomes) =
      ((runResolvers t input props fwd cs w).failures.head?).map
        (fun p => wrapIncludeError p.1 p.2) := by
  intro cs
  induction cs with
  | nil => intro w _; rfl
  | cons c rest ih =>
      intro w hall
      have hrest : ∀ nm ∈ rest, (includesMapGet t nm).isSome = true :=
        fun nm hm => hall nm (List.mem_cons_of_mem _ hm)
      cases hget : includesMapGet t c with
      | none =>
          have := hall c (List.mem_cons_self _ _)
          rw [hget] at this
          exact absurd this (by simp)
      | some g =>
          cases hcall : g w input props fwd with
          | mk w₁ res =>
              cases res with
              | ok v =>
                  simp only [runResolvers, hget, hcall, firstError]
                  exact ih w₁ hrest
              | error e =>
                  simp only [runResolvers, hget, hcall, firstError, List.head?_cons]
                  rfl

theorem aggregateAll_ok_mem : ∀ (rs : List (Except Thrown JSVal)) (vs : List JSVal),
    aggregateAll rs = Except.ok vs → ∀ r ∈ rs, ∃ v, r = Except.ok v := by
  intro rs
  induction rs with
  | nil => intro vs _ r hr; exact absurd hr (List.not_mem_nil r)
  | cons x rest ih =>
      intro vs hagg r hr
      cases x with
      | error e => simp [aggregateAll] at hagg
      | ok v =>
          rcases List.mem_cons.mp hr with h | h
          · exact ⟨v, h⟩
          · cases hrest : aggregateAll rest with
            | error e => rw [aggregateAll, hrest] at hagg; simp [Except.map] at hagg
            | ok vs' => exact ih vs' hrest r h

theorem aggregateAll_error_mem : ∀ (rs : List (Except Thrown JSVal)) (e : Thrown),
    Except.error e ∈ rs → ∃ e', aggregateAll rs = Except.error e' := by
  intro rs
  induction rs with
  | nil => intro e he; exact absurd he (List.not_mem_nil _)
  | cons x rest ih =>
      intro e he
      cases x with
      | error e₀ => exact ⟨e₀, rfl⟩
      | ok v =>
          rcases List.mem_cons.mp he with h | h
          · exact absurd h (by simp)
          · obtain ⟨e', he'⟩ := ih e h
            refine ⟨e', ?_⟩
            rw [aggregateAll, he']
            rfl

theorem inIncludesMap_get_isSome (t : TransformerDesc)
    (hown : ∀ nm r, lookupStr t.own nm = some r → r.isSome = true) (nm : String)
    (h : inIncludesMap t nm = true) : (includesMapGet t nm).isSome = true := by
  unfold inIncludesMap at h
  unfold includesMapGet
  cases hl : lookupStr t.own nm with
  | some r =>
      have hr := hown nm r hl
      cases r with
      | none => simp at hr
      | some f => rfl
  | none =>
      rw [hl] at h
      simp only [Option.isSome_none, Bool.false_or, decide_eq_true_eq] at h
      simp [h]

theorem __transform_failfast (t : TransformerDesc) (w : World) (input props : JSVal)
    (inc₀ : List String)
    (hown : ∀ nm r, lookupStr t.own nm = some r → r.isSome = true) :
    (∀ n e, (__transform t w input props inc₀).failures.head? = some (n, e) →
      (__transform t w input props inc₀).result = Except.error (wrapIncludeError n e)) ∧
    (∀ v, (__transform t w input props inc₀).result = Except.ok v →
      (__transform t w input props inc₀).failures = []) := by
  have hvalid : ∀ nm ∈ (dedupFirst inc₀).filter (fun i => inIncludesMap t i),
      (includesMapGet t nm).isSome = true := by
    intro nm hm
    exact inIncludesMap_get_isSome t hown nm (by simpa using (List.mem_filter.mp hm).2)
  simp only [__transform]
  split
  next w₁ e heq => exact ⟨fun n e h => by simp at h, fun v h => rfl⟩
  next w₁ data heq =>
    split
    next fields =>
      split
      next hemp => exact ⟨fun n e h => by simp at h, fun v h => rfl⟩
      next hemp =>
        have hfe := runResolvers_firstError t input props
          ((dedupFirst inc₀).filter (fun i => !(inIncludesMap t i)))
          ((dedupFirst inc₀).filter (fun i => inIncludesMap t i)) w₁ hvalid
        split
        next e heq2 =>
            refine ⟨fun n e₀ h => ?_, fun v h => by simp at h⟩
            rw [heq2] at hfe
            rw [h] at hfe
            simp only [Option.map] at hfe
            simp only [TRes.result]
            exact congrArg Except.error (Option.some_injective _ hfe)
        next heq2 =>
            refine ⟨fun n e₀ h => ?_, fun v _ => ?_⟩
            · rw [heq2] at hfe
              rw [h] at hfe
              simp [Option.map] at hfe
            · rw [heq2] at hfe
              cases hh : ((runResolvers t input props
                  ((dedupFirst inc₀).filter (fun i => !(inIncludesMap t i)))
                  ((dedupFirst inc₀).filter (fun i => inIncludesMap t i)) w₁).failures) with
              | nil => rfl
              | cons p rest =>
                  rw [hh] at hfe
                  simp [Option.map] at hfe
    next d hne => exact ⟨fun n e h => by simp at h, fun v h => rfl⟩

/-- C4: for every transform call, every resolver invocation is for a
locally handled name of the combined include list, and its third
argument (`forwardedIncludes`) holds exactly the combined names that
are not locally handled — every forwarded name present, no locally
handled name present — and this list is the same for every resolver
invoked in that call. -/
theorem claim_C4_forwarding_law (t : TransformerDesc) (w : World) (input props : JSVal)
    (includes unsafeIncludes : List String) (n : String) (f : List String)
    (h : (n, f) ∈ (transform t w input props includes unsafeIncludes).invocations) :
    inIncludesMap t n = true ∧ n ∈ includes ++ unsafeIncludes ∧
    (∀ x, x ∈ f ↔ (x ∈ includes ++ unsafeIncludes ∧ inIncludesMap t x = false)) ∧
    (∀ n' f', (n', f') ∈ (transform t w input props includes unsafeIncludes).invocations →
      f' = f) := by
  obtain ⟨hf, hn, hs⟩ := __transform_invocations_spec t w input props _ n f h
  have hmem := List.mem_filter.mp hn
  refine ⟨hmem.2, (mem_dedupFirst _ n).mp hmem.1, ?_, ?_⟩
  · intro x
    rw [hf, List.mem_filter, mem_dedupFirst]
    simp [Bool.not_eq_true']
  · intro n' f' h2
    obtain ⟨hf', _, _⟩ := __transform_invocations_spec t w input props _ n' f' h2
    rw [hf', hf]

theorem claim_C4_forwarding_law_witness :
    inIncludesMap tEx "a" = true ∧ "a" ∈ ["a"] ++ ["x"] ∧
    (∀ x, x ∈ ["x"] ↔ (x ∈ ["a"] ++ ["x"] ∧ inIncludesMap tEx x = false)) ∧
    (∀ n' f', (n', f') ∈ (transform tEx [] (JSVal.vNum 0) JSVal.vUndefined ["a"] ["x"]).invocations →
      f' = ["x"]) :=
  claim_C4_forwarding_law tEx [] (JSVal.vNum 0) JSVal.vUndefined ["a"] ["x"] "a" ["x"] (by decide)

/-- C6: if any selected include resolver throws or rejects during a
transform call (the first recorded failure carrying name `n` and
original thrown value `e`), the call rejects with a new `Error` whose
message carries the include's name and the original error's message,
and no output value is returned (an `ok` result forces an empty
failure log); for `transformMany`, a batch result is only `ok` when
every item resolved, and any item rejection rejects the whole batch.
The hypothesis rules out own `includesMap` entries whose value is
`undefined` (the missing-resolver defect case of the spec). -/
theorem claim_C6_include_failure_failfast (t : TransformerDesc) (w : World)
    (input props : JSVal) (includes unsafeIncludes : List String) (inputs : List JSVal)
    (hown : ∀ nm r, lookupStr t.own nm = some r → r.isSome = true) :
    (∀ n e, (transform t w input props includes unsafeIncludes).failures.head? = some (n, e) →
      (transform t w input props includes unsafeIncludes).result =
        Except.error (wrapIncludeError n e)) ∧
    (∀ v, (transform t w input props includes unsafeIncludes).result = Except.ok v →
      (transform t w input props includes unsafeIncludes).failures = []) ∧
    (∀ vs, (transformMany t w inputs props includes unsafeIncludes).2 = Except.ok vs →
      ∀ r ∈ (runMany t props (includes ++ unsafeIncludes) inputs w).2, ∃ v, r = Except.ok v) ∧
    (∀ e, Except.error e ∈ (runMany t props (includes ++ unsafeIncludes) inputs w).2 →
      ∃ e', (transformMany t w inputs props includes unsafeIncludes).2 = Except.error e') := by
  obtain ⟨h1, h2⟩ := __transform_failfast t w input props (includes ++ unsafeIncludes) hown
  refine ⟨h1, h2, ?_, ?_⟩
  · intro vs hok r hr
    cases hrm : runMany t props (includes ++ unsafeIncludes) inputs w with
    | mk w' rs =>
        simp only [transformMany, hrm] at hok
        rw [hrm] at hr
        exact aggregateAll_ok_mem rs vs hok r hr
  · intro e he
    cases hrm : runMany t props (includes ++ unsafeIncludes) inputs w with
    | mk w' rs =>
        rw [hrm] at he
        obtain ⟨e', he'⟩ := aggregateAll_error_mem rs e he
        refine ⟨e', ?_⟩
        simp only [transformMany, hrm, he']

theorem claim_C6_include_failure_failfast_witness :
    (transform tFail [] (JSVal.vNum 0) JSVal.vUndefined ["boom"] []).result =
      Except.error (wrapIncludeError "boom" (Thrown.errObj "kaboom")) := by
  have hown : ∀ nm r, lookupStr tFail.own nm = some r → r.isSome = true := by
    intro nm r h
    simp only [tFail, lookupStr] at h
    split at h
    · cases h; rfl
    · split at h
      · cases h; rfl
      · cases h
  exact (claim_C6_include_failure_failfast tFail [] (JSVal.vNum 0) JSVal.vUndefined
    ["boom"] [] [] hown).1 "boom" (Thrown.errObj "kaboom") (by decide)

theorem dedupFirst_single (a : String) : dedupFirst [a] = [a] := by
  simp [dedupFirst, dedupAux]

theorem dedupFirst_pair (a : String) : dedupFirst [a, a] = [a] := by
  simp [dedupFirst, dedupAux]

theorem __transform_congr (t : TransformerDesc) (w : World) (input props : JSVal)
    {l₁ l₂ : List String} (h : dedupFirst l₁ = dedupFirst l₂) :
    __transform t w input props l₁ = __transform t w input props l₂ := by
  simp only [__transform, h]

theorem __transform_invocations_phase (t : TransformerDesc) (w : World) (input props : JSVal)
    (inc₀ : List String) (w₁ : World) (fields : List (String × JSField))
    (hdata : t.dataFnW w input props = (w₁, Except.ok (JSVal.vObj fields)))
    (hne : (dedupFirst inc₀).isEmpty = false) :
    (__transform t w input props inc₀).invocations =
      (runResolvers t input props
        ((dedupFirst inc₀).filter (fun i => !(inIncludesMap t i)))
        ((dedupFirst inc₀).filter (fun i => inIncludesMap t i)) w₁).invocations := by
  simp only [__transform, hdata, hne, Bool.false_eq_true, if_false]
  split <;> rfl

/-- C7: duplicate include names are idempotent: `transform` with
includes `[a, a]` behaves identically (same world, result, resolver
invocations and failures) to includes `[a]`, and includes `[a]` plus
unsafeIncludes `[a]` behaves identically as well — the combined list is
deduplicated with set semantics before resolution — so in that call
the resolver for `a` is invoked exactly once (given the base output is
an object and `a` is a resolvable member of the map). -/
theorem claim_C7_dedup_idempotent (t : TransformerDesc) (w : World) (input props : JSVal)
    (a : String) :
    transform t w input props [a, a] [] = transform t w input props [a] [] ∧
    transform t w input props [a] [a] = transform t w input props [a] [] ∧
    (∀ w₁ fields, t.dataFnW w input props = (w₁, Except.ok (JSVal.vObj fields)) →
      inIncludesMap t a = true → (includesMapGet t a).isSome = true →
      List.countP (fun p => decide (p.1 = a))
        (transform t w input props [a] [a]).invocations = 1) := by
  have hpair : ([a] ++ [a] : List String) = [a, a] := rfl
  have hcongr : __transform t w input props [a, a] = __transform t w input props [a] :=
    __transform_congr t w input props ((dedupFirst_pair a).trans (dedupFirst_single a).symm)
  have htr : transform t w input props [a, a] [] = transform t w input props [a] [] := by
    show __transform t w input props ([a, a] ++ []) = __transform t w input props ([a] ++ [])
    simpa using hcongr
  have htr2 : transform t w input props [a] [a] = transform t w input props [a] [] := by
    show __transform t w input props ([a] ++ [a]) = __transform t w input props ([a] ++ [])
    simpa using hcongr
  refine ⟨htr, htr2, ?_⟩
  intro w₁ fields hdata hin hsome
  rw [htr2]
  have hne : (dedupFirst [a]).isEmpty = false := by
    rw [dedupFirst_single]
    rfl
  have hphase := __transform_invocations_phase t w input props [a] w₁ fields hdata hne
  have hvalid : (dedupFirst [a]).filter (fun i => inIncludesMap t i) = [a] := by
    rw [dedupFirst_single]
    simp [List.filter, hin]
  have hinv : (transform t w input props [a] []).invocations =
      (runResolvers t input props
        ((dedupFirst [a]).filter (fun i => !(inIncludesMap t i))) [a] w₁).invocations := by
    show (__transform t w input props ([a] ++ [])).invocations = _
    rw [List.append_nil, hphase, hvalid]
  rw [hinv]
  cases hget : includesMapGet t a with
  | none => rw [hget] at hsome; simp at hsome
  | some g =>
      cases hcall : g w₁ input props
          ((dedupFirst [a]).filter (fun i => !(inIncludesMap t i))) with
      | mk w₂ res =>
          cases res with
          | ok v => simp [runResolvers, hget, hcall]
          | error e => simp [runResolvers, hget, hcall]

theorem claim_C7_dedup_idempotent_witness :
    transform tEx [] (JSVal.vNum 0) JSVal.vUndefined ["a", "a"] [] =
      transform tEx [] (JSVal.vNum 0) JSVal.vUndefined ["a"] [] ∧
    List.countP (fun p => decide (p.1 = "a"))
      (transform tEx [] (JSVal.vNum 0) JSVal.vUndefined ["a"] ["a"]).invocations = 1 :=
  ⟨(claim_C7_dedup_idempotent tEx [] (JSVal.vNum 0) JSVal.vUndefined "a").1,
    (claim_C7_dedup_idempotent tEx [] (JSVal.vNum 0) JSVal.vUndefined "a").2.2
      [] [("base", JSField.fNum 1)] rfl (by decide) (by decide)⟩

/-- C10: a requested include name that is not an own key of
`includesMap` but is inherited from `Object.prototype` — `toString`
here — is classified as locally handled by the `in` membership test:
it is omitted from the `forwardedIncludes` passed to every invoked
resolver (in any call), and when requested, the inherited prototype
member itself is invoked as if it were a resolver with the forwarded
list, its return value being assigned to that key of the output
object. -/
theorem claim_C10_prototype_member_include (t : TransformerDesc) (w : World)
    (input props : JSVal) (hOwnTS : lookupStr t.own "toString" = none) :
    inIncludesMap t "toString" = true ∧
    (∀ inc₀ n f, (n, f) ∈ (__transform t w input props inc₀).invocations → "toString" ∉ f) ∧
    (∀ w₁ fields w₂ v, t.dataFnW w input props = (w₁, Except.ok (JSVal.vObj fields)) →
      t.protoM "toString" w₁ input props [] = (w₂, Except.ok v) →
      (__transform t w input props ["toString"]).invocations = [("toString", [])] ∧
      (__transform t w input props ["toString"]).result =
        Except.ok (JSVal.vObj (setStr fields "toString" v)) ∧
      (__transform t w input props ["toString"]).world = w₂) := by
  have hproto : decide ("toString" ∈ protoProps) = true := by decide
  have hin : inIncludesMap t "toString" = true := by
    simp [inIncludesMap, hOwnTS, hproto]
  have hget : includesMapGet t "toString" = some (t.protoM "toString") := by
    simp only [includesMapGet, hOwnTS]
    rw [if_pos (by decide)]
  refine ⟨hin, ?_, ?_⟩
  · intro inc₀ n f h hmemf
    obtain ⟨hf, _, _⟩ := __transform_invocations_spec t w input props inc₀ n f h
    rw [hf] at hmemf
    have := (List.mem_filter.mp hmemf).2
    rw [hin] at this
    simp at this
  · intro w₁ fields w₂ v hdata hres
    have hded : dedupFirst ["toString"] = ["toString"] := dedupFirst_single _
    have hothers : List.filter (fun i => !(inIncludesMap t i)) ["toString"] = [] := by
      simp [List.filter, hin]
    have hvalid : List.filter (fun i => inIncludesMap t i) ["toString"] = ["toString"] := by
      simp [List.filter, hin]
    have hrun : runResolvers t input props [] ["toString"] w₁ =
        ⟨w₂, [("toString", Except.ok v)], [("toString", [])], []⟩ := by
      simp [runResolvers, hget, hres]
    simp only [__transform, hdata, hded, hothers, hvalid, hrun, List.isEmpty_cons,
      Bool.false_eq_true, if_false]
    simp [firstError, assignIncludes]

theorem claim_C10_prototype_member_include_witness :
    (__transform tEx [] (JSVal.vNum 0) JSVal.vUndefined ["toString"]).invocations =
      [("toString", [])] ∧
    (__transform tEx [] (JSVal.vNum 0) JSVal.vUndefined ["toString"]).result =
      Except.ok (JSVal.vObj
        (setStr [("base", JSField.fNum 1)] "toString" JSField.fUndefined)) ∧
    (__transform tEx [] (JSVal.vNum 0) JSVal.vUndefined ["toString"]).world = [] :=
  (claim_C10_prototype_member_include tEx [] (JSVal.vNum 0) JSVal.vUndefined (by rfl)).2.2
    [] [("base", JSField.fNum 1)] [] JSField.fUndefined rfl rfl
